import Mathlib

/-!
Verification of the gaper file watcher (watcher.go).

The embedding translates the watcher source into Lean:
  - resolvePaths / removeOverlappedPaths: pattern resolution and overlap
    removal, with the glob expander (the external zglob collaborator)
    passed in as a function argument;
  - scanChange: the filepath.Walk-based polling scan over an explicit
    filesystem tree (Entry), returning the first detected change and, as
    instrumentation, the list of visited entries in visit order;
  - Watch: the orchestration loop, as a step function over the pair of
    the global baseline timestamp (the package-level startTime variable)
    and the per-instance channel outputs (modelled as lists of delivered
    events and errors plus a stopped flag).

Go strings are modelled as Lean String values; strings.HasPrefix is
character-list prefix (hasPre); machine times are unbounded Int values
ordered as time.Time.After orders instants (strict <).
-/

/-- Embedding of strings.HasPrefix s p: p is a prefix of s.
Argument order matches the Go call strings.HasPrefix(s, prefix). -/
def hasPre (s p : String) : Bool := p.data.isPrefixOf s.data

/-- Characters of the final path element: everything after the last
slash (the whole string when it has no slash). Mirrors the way
filepath.Base and filepath.Ext look only at the final element of a
clean, slash-separated path. -/
def lastSeg (l : List Char) : List Char :=
  (l.reverse.takeWhile (fun c => c ≠ '/')).reverse

/-- Embedding of filepath.Base for the clean nonempty paths the walk
builds (root path, or parent ++ "/" ++ name). -/
def baseOf (p : String) : String := ⟨lastSeg p.data⟩

/-- Embedding of filepath.Ext: the suffix of the final path element
starting at its last dot, empty when the final element has no dot. -/
def extOf (p : String) : String :=
  let rev := p.data.reverse.takeWhile (fun c => c ≠ '/')
  let pre := rev.takeWhile (fun c => c ≠ '.')
  if pre.length = rev.length then "" else ⟨'.' :: pre.reverse⟩

/-- The hidden-entry test of scanChange on a base name: dir[0] == '.'
and dir != ".". -/
def isHiddenName (s : String) : Bool :=
  match s.data with
  | [] => false
  | c :: rest => c == '.' && !rest.isEmpty

/-- One iteration of the inner loop of removeOverlappedPaths for outer
element p1 and inner element p2: strings.HasPrefix(p2, p1) marks p2 as
overlapped, otherwise strings.HasPrefix(p1, p2) marks p1. The list d
accumulates the paths whose map value has been set to false. -/
def markStep (p1 : String) (d : List String) (p2 : String) : List String :=
  if p1 = p2 then d
  else if hasPre p2 p1 then p2 :: d
  else if hasPre p1 p2 then p1 :: d
  else d

/-- The full inner loop of removeOverlappedPaths for one outer element. -/
def markOne (p1 : String) (keys dead : List String) : List String :=
  keys.foldl (markStep p1) dead

/-- The outer loop of removeOverlappedPaths: outer elements already
marked false are skipped. The list giving the iteration order is kept
separate from the key set so that order-independence can be proved. -/
def markAll (keys : List String) : List String → List String → List String
  | [], dead => dead
  | p1 :: rest, dead =>
    if p1 ∈ dead then markAll keys rest dead
    else markAll keys rest (markOne p1 keys dead)

/-- Embedding of removeOverlappedPaths: mark overlapped paths false,
then drop them. The Go function mutates a map[string]bool in place; here
the key set is carried as a list whose order stands for the map
iteration order. -/
def removeOverlappedPaths (mapPaths : List String) : List String :=
  let dead := markAll mapPaths mapPaths []
  mapPaths.filter (fun p => decide (p ∉ dead))

/-- x has a proper string-prefix among the members of keys. -/
def coveredIn (keys : List String) (x : String) : Prop :=
  ∃ y, y ∈ keys ∧ y ≠ x ∧ hasPre x y = true

lemma hasPre_iff (s p : String) : hasPre s p = true ↔ p.data <+: s.data := by
  simp [hasPre, List.isPrefixOf_iff_prefix]

lemma strEq_of_data {a b : String} (h : a.data = b.data) : a = b := by
  cases a; cases b; simp_all

lemma markStep_sub (p1 p2 : String) (d : List String) : d ⊆ markStep p1 d p2 := by
  unfold markStep
  split
  · exact fun x hx => hx
  · split
    · exact List.subset_cons_self _ _
    · split
      · exact List.subset_cons_self _ _
      · exact fun x hx => hx

lemma markOne_mono (p1 : String) :
    ∀ keys dead, dead ⊆ markOne p1 keys dead := by
  intro keys
  induction keys with
  | nil => intro dead; exact fun x hx => hx
  | cons k ks ih =>
    intro dead
    have h1 : dead ⊆ markStep p1 dead k := markStep_sub p1 k dead
    exact fun x hx => ih (markStep p1 dead k) (h1 hx)

lemma markOne_sound (p1 : String) (keys0 : List String) (hp1 : p1 ∈ keys0) :
    ∀ keys dead, keys ⊆ keys0 → (∀ w ∈ dead, coveredIn keys0 w) →
      ∀ x ∈ markOne p1 keys dead, coveredIn keys0 x := by
  intro keys
  induction keys with
  | nil => intro dead _ hdead x hx; exact hdead x hx
  | cons k ks ih =>
    intro dead hsub hdead x hx
    have hk : k ∈ keys0 := hsub (List.mem_cons_self k ks)
    have hks : ks ⊆ keys0 := fun a ha => hsub (List.mem_cons_of_mem k ha)
    refine ih (markStep p1 dead k) hks ?_ x hx
    intro w hw
    unfold markStep at hw
    split at hw
    · exact hdead w hw
    · next hne =>
      split at hw
      · next hpre =>
        rcases List.mem_cons.mp hw with rfl | hw'
        · exact ⟨p1, hp1, hne, hpre⟩
        · exact hdead w hw'
      · split at hw
        · next hpre2 =>
          rcases List.mem_cons.mp hw with rfl | hw'
          · exact ⟨k, hk, fun h => hne h.symm, hpre2⟩
          · exact hdead w hw'
        · exact hdead w hw

lemma markOne_hits (p1 x : String) :
    ∀ keys dead, x ∈ keys → p1 ≠ x → hasPre x p1 = true →
      x ∈ markOne p1 keys dead := by
  intro keys
  induction keys with
  | nil => intro dead hx; exact absurd hx (List.not_mem_nil x)
  | cons k ks ih =>
    intro dead hx hne hpre
    rcases List.mem_cons.mp hx with rfl | hx'
    · have hstep : x ∈ markStep p1 dead x := by
        unfold markStep
        rw [if_neg hne, if_pos hpre]
        exact List.mem_cons_self x dead
      exact markOne_mono p1 ks (markStep p1 dead x) hstep
    · exact ih (markStep p1 dead k) hx' hne hpre

lemma markAll_mono (keys : List String) :
    ∀ outer dead, dead ⊆ markAll keys outer dead := by
  intro outer
  induction outer with
  | nil => intro dead; exact fun x hx => hx
  | cons z rest ih =>
    intro dead
    unfold markAll
    split
    · exact ih dead
    · exact fun x hx => ih (markOne z keys dead) (markOne_mono z keys dead hx)

lemma markAll_sound (keys : List String) :
    ∀ outer dead, outer ⊆ keys → (∀ w ∈ dead, coveredIn keys w) →
      ∀ x ∈ markAll keys outer dead, coveredIn keys x := by
  intro outer
  induction outer with
  | nil => intro dead _ hdead x hx; exact hdead x hx
  | cons z rest ih =>
    intro dead hsub hdead x hx
    have hz : z ∈ keys := hsub (List.mem_cons_self z rest)
    have hrest : rest ⊆ keys := fun a ha => hsub (List.mem_cons_of_mem z ha)
    unfold markAll at hx
    split at hx
    · exact ih dead hrest hdead x hx
    · exact ih (markOne z keys dead) hrest
        (markOne_sound z keys hz keys dead (fun a ha => ha) hdead) x hx

lemma markAll_hits (keys : List String) :
    ∀ outer dead, outer ⊆ keys → (∀ w ∈ dead, coveredIn keys w) →
      ∀ z x, z ∈ outer → x ∈ keys → z ≠ x → hasPre x z = true →
        ¬ coveredIn keys z → x ∈ markAll keys outer dead := by
  intro outer
  induction outer with
  | nil => intro dead _ _ z x hz; exact absurd hz (List.not_mem_nil z)
  | cons h rest ih =>
    intro dead hsub hdead z x hz hx hne hpre hncov
    have hrest : rest ⊆ keys := fun a ha => hsub (List.mem_cons_of_mem h ha)
    rcases List.mem_cons.mp hz with rfl | hz'
    · unfold markAll
      split
      · next hmem => exact absurd (hdead z hmem) hncov
      · have hin : x ∈ markOne z keys dead := markOne_hits z x keys dead hx hne hpre
        exact markAll_mono keys rest (markOne z keys dead) hin
    · unfold markAll
      split
      · exact ih dead hrest hdead z x hz' hx hne hpre hncov
      · have hh : h ∈ keys := hsub (List.mem_cons_self h rest)
        exact ih (markOne h keys dead) hrest
          (markOne_sound h keys hh keys dead (fun a ha => ha) hdead)
          z x hz' hx hne hpre hncov

lemma proper_pre_length {y x : String} (hne : y ≠ x) (hpre : hasPre x y = true) :
    y.data.length < x.data.length := by
  have hp : y.data <+: x.data := (hasPre_iff x y).mp hpre
  have hle : y.data.length ≤ x.data.length := hp.length_le
  rcases Nat.lt_or_ge y.data.length x.data.length with h | h
  · exact h
  · have heq : y.data.length = x.data.length := Nat.le_antisymm hle h
    exact absurd (strEq_of_data (hp.eq_of_length heq)) hne

lemma dead_complete (keys : List String) (x : String) (hx : x ∈ keys)
    (hcov : coveredIn keys x) : x ∈ markAll keys keys [] := by
  have main : ∀ n, ∀ y : String, y.data.length ≤ n → y ∈ keys → y ≠ x →
      hasPre x y = true → x ∈ markAll keys keys [] := by
    intro n
    induction n with
    | zero =>
      intro y hlen hy hne hpre
      by_cases hcy : coveredIn keys y
      · obtain ⟨w, _, hwne, hwpre⟩ := hcy
        have := proper_pre_length hwne hwpre
        omega
      · exact markAll_hits keys keys [] (fun a ha => ha) (by simp) y x hy hx hne hpre hcy
    | succ n ih =>
      intro y hlen hy hne hpre
      by_cases hcy : coveredIn keys y
      · obtain ⟨w, hw, hwne, hwpre⟩ := hcy
        have hlt : w.data.length < y.data.length := proper_pre_length hwne hwpre
        have hylt : y.data.length < x.data.length := proper_pre_length hne hpre
        have hwx : hasPre x w = true := by
          rw [hasPre_iff] at hwpre hpre ⊢
          exact hwpre.trans hpre
        have hwnex : w ≠ x := by
          intro h
          subst h
          omega
        exact ih w (by omega) hw hwnex hwx
      · exact markAll_hits keys keys [] (fun a ha => ha) (by simp) y x hy hx hne hpre hcy
  obtain ⟨y, hy, hne, hpre⟩ := hcov
  exact main y.data.length y le_rfl hy hne hpre

/-- Membership characterization of removeOverlappedPaths: a path
survives exactly when no other member of the input is a proper
string-prefix of it, and this holds for every iteration order. -/
lemma mem_removeOverlappedPaths (keys : List String) (x : String) :
    x ∈ removeOverlappedPaths keys ↔ x ∈ keys ∧ ¬ coveredIn keys x := by
  unfold removeOverlappedPaths
  rw [List.mem_filter]
  constructor
  · rintro ⟨hk, hnd⟩
    refine ⟨hk, fun hcov => ?_⟩
    have := dead_complete keys x hk hcov
    simp only [decide_eq_true_eq] at hnd
    exact hnd this
  · rintro ⟨hk, hncov⟩
    refine ⟨hk, ?_⟩
    simp only [decide_eq_true_eq]
    intro hd
    exact hncov (markAll_sound keys keys [] (fun a ha => ha) (by simp) x hd)

/-- C5: overlap removal discards exactly the members that have a proper
string-prefix among the other members, so in the result no path is a
proper prefix of another. -/
theorem removeOverlappedPaths_spec (keys : List String) :
    (∀ x, x ∈ removeOverlappedPaths keys ↔
        x ∈ keys ∧ ∀ y ∈ keys, y ≠ x → hasPre x y = false)
    ∧ ∀ a ∈ removeOverlappedPaths keys, ∀ b ∈ removeOverlappedPaths keys,
        a ≠ b → hasPre b a = false := by
  have hchar : ∀ x, x ∈ removeOverlappedPaths keys ↔
      x ∈ keys ∧ ∀ y ∈ keys, y ≠ x → hasPre x y = false := by
    intro x
    rw [mem_removeOverlappedPaths]
    unfold coveredIn
    constructor
    · rintro ⟨hk, hncov⟩
      refine ⟨hk, fun y hy hne => ?_⟩
      by_contra h
      exact hncov ⟨y, hy, hne, by simpa using h⟩
    · rintro ⟨hk, hall⟩
      refine ⟨hk, ?_⟩
      rintro ⟨y, hy, hne, hpre⟩
      rw [hall y hy hne] at hpre
      exact Bool.false_ne_true hpre
  refine ⟨hchar, fun a ha b hb hne => ?_⟩
  obtain ⟨haK, _⟩ := (hchar a).mp ha
  obtain ⟨_, hbAll⟩ := (hchar b).mp hb
  exact hbAll a haK hne

/-- Witness for C5 at the overlap scenario watch set: the ancestor
survives and the descendant is removed. -/
theorem removeOverlappedPaths_spec_witness :
    "/root/proj" ∈ removeOverlappedPaths ["/root/proj", "/root/proj/sub"]
    ∧ "/root/proj/sub" ∉ removeOverlappedPaths ["/root/proj", "/root/proj/sub"] := by
  have h := removeOverlappedPaths_spec ["/root/proj", "/root/proj/sub"]
  constructor
  · exact (h.1 "/root/proj").mpr ⟨by decide, by decide⟩
  · intro hmem
    have hc := (h.1 "/root/proj/sub").mp hmem
    have := hc.2 "/root/proj" (by decide) (by decide)
    exact absurd this (by decide)

/-- Embedding of strings.Contains(path, "*"): the test resolvePaths
uses to decide whether a pattern is a glob. -/
def isGlob (p : String) : Bool := p.data.contains '*'

/-- The error message resolvePaths builds around a failed glob
expansion; it quotes the offending pattern. -/
def globErrMsg (p e : String) : String :=
  "couldn\x27t resolve glob path \x22" ++ p ++ "\x22: " ++ e

/-- Set insertion into the result map of resolvePaths: adding a match
only when it is not yet present. -/
def insertNew (acc : List String) (m : String) : List String :=
  if m ∈ acc then acc else acc ++ [m]

/-- The pattern loop of resolvePaths. The glob expander (zglob.Glob,
an external collaborator backed by the filesystem) is the function
argument glob. Note the loop-invariant filter condition of the source:
for a glob pattern, each expansion result is admitted only when the
extension of the PATTERN string itself is in the extension filter; a
non-glob pattern is added verbatim, unfiltered. -/
def resolveCandidates (glob : String → Except String (List String))
    (extensions : List String) : List String → List String → Except String (List String)
  | [], acc => Except.ok acc
  | p :: rest, acc =>
    if isGlob p then
      match glob p with
      | Except.error e => Except.error (globErrMsg p e)
      | Except.ok ms =>
        resolveCandidates glob extensions rest
          (ms.foldl (fun a m => if extOf p ∈ extensions then insertNew a m else a) acc)
    else
      resolveCandidates glob extensions rest (insertNew acc p)

/-- Embedding of resolvePaths: expand and filter the patterns, then
remove overlapped paths. The candidate list order stands for one
possible iteration order of the Go result map. -/
def resolvePaths (glob : String → Except String (List String))
    (paths extensions : List String) : Except String (List String) :=
  match resolveCandidates glob extensions paths [] with
  | Except.error e => Except.error e
  | Except.ok result => Except.ok (removeOverlappedPaths result)

/-- resolvePaths with an explicit reordering σ of the candidate set
before overlap removal; σ models the unspecified iteration order of the
Go map. resolvePaths is the instance σ = id. -/
def resolvePathsWith (σ : List String → List String)
    (glob : String → Except String (List String))
    (paths extensions : List String) : Except String (List String) :=
  match resolveCandidates glob extensions paths [] with
  | Except.error e => Except.error e
  | Except.ok result => Except.ok (removeOverlappedPaths (σ result))

/-- Modelled from the spec: the documented default poll interval used
when the configured interval is zero (the DefaultPoolInterval constant
lives outside the provided source file). Its value decides no claim. -/
def DefaultPoolInterval : Int := 500

/-- Modelled from the spec: the documented default extension set used
when none is configured (the DefaultExtensions constant lives outside
the provided source file). Its value decides no claim. -/
def DefaultExtensions : List String := ["go"]

/-- The configured watcher record produced by NewWatcher (the events
and errors channels are modelled at the loop level, not stored here). -/
structure WatcherCfg where
  pollInterval : Int
  watchItems : List String
  ignoreItems : List String
  allowedExtensions : List String
deriving DecidableEq

/-- Embedding of NewWatcher: apply defaults, normalize extensions with
a leading dot, resolve watch and ignore paths, and fail construction on
the first resolution error. -/
def NewWatcher (glob : String → Except String (List String)) (pollInterval : Int)
    (watchItems ignoreItems extensions : List String) : Except String WatcherCfg :=
  let pi := if pollInterval = 0 then DefaultPoolInterval else pollInterval
  let exts := if extensions = [] then DefaultExtensions else extensions
  let allowedExts := exts.map (fun e => "." ++ e)
  match resolvePaths glob watchItems allowedExts with
  | Except.error e => Except.error e
  | Except.ok watchPaths =>
    match resolvePaths glob ignoreItems allowedExts with
    | Except.error e => Except.error e
    | Except.ok ignorePaths =>
      Except.ok ⟨pi, watchPaths, ignorePaths, allowedExts⟩

lemma resolveCandidates_error (glob : String → Except String (List String)) :
    ∀ ps : List String, (∃ p e, p ∈ ps ∧ isGlob p = true ∧ glob p = Except.error e) →
      ∃ q eq, q ∈ ps ∧ isGlob q = true ∧ glob q = Except.error eq ∧
        ∀ extensions acc, resolveCandidates glob extensions ps acc
          = Except.error (globErrMsg q eq) := by
  intro ps
  induction ps with
  | nil =>
    rintro ⟨p, e, hp, -, -⟩
    exact absurd hp (List.not_mem_nil p)
  | cons h rest ih =>
    rintro ⟨p, e, hp, hg, herr⟩
    by_cases hgh : isGlob h = true
    · cases hres : glob h with
      | error e0 =>
        refine ⟨h, e0, List.mem_cons_self h rest, hgh, hres, fun extensions acc => ?_⟩
        unfold resolveCandidates
        rw [if_pos hgh, hres]
      | ok ms =>
        have hp' : p ∈ rest := by
          rcases List.mem_cons.mp hp with rfl | hp'
          · rw [herr] at hres; exact absurd hres (by simp)
          · exact hp'
        obtain ⟨q, eq, hq, hgq, heq, hall⟩ := ih ⟨p, e, hp', hg, herr⟩
        refine ⟨q, eq, List.mem_cons_of_mem h hq, hgq, heq, fun extensions acc => ?_⟩
        unfold resolveCandidates
        rw [if_pos hgh, hres]
        exact hall extensions _
    · have hp' : p ∈ rest := by
        rcases List.mem_cons.mp hp with rfl | hp'
        · exact absurd hg hgh
        · exact hp'
      obtain ⟨q, eq, hq, hgq, heq, hall⟩ := ih ⟨p, e, hp', hg, herr⟩
      refine ⟨q, eq, List.mem_cons_of_mem h hq, hgq, heq, fun extensions acc => ?_⟩
      unfold resolveCandidates
      rw [if_neg hgh]
      exact hall extensions _

/-- C4: a malformed glob pattern among the watch items fails the whole
resolution with an error naming the offending pattern, no partial path
set is produced, and NewWatcher returns no watcher. -/
theorem newWatcher_glob_error (glob : String → Except String (List String))
    (pollInterval : Int) (watchItems ignoreItems extensions : List String)
    (p e : String) (hp : p ∈ watchItems) (hg : isGlob p = true)
    (herr : glob p = Except.error e) :
    ∃ q eq, q ∈ watchItems ∧ isGlob q = true ∧ glob q = Except.error eq ∧
      (∀ exts, resolvePaths glob watchItems exts = Except.error (globErrMsg q eq)) ∧
      NewWatcher glob pollInterval watchItems ignoreItems extensions
        = Except.error (globErrMsg q eq) := by
  obtain ⟨q, eq, hq, hgq, heq, hall⟩ :=
    resolveCandidates_error glob watchItems ⟨p, e, hp, hg, herr⟩
  have hres : ∀ exts, resolvePaths glob watchItems exts
      = Except.error (globErrMsg q eq) := by
    intro exts
    unfold resolvePaths
    rw [hall exts []]
  refine ⟨q, eq, hq, hgq, heq, hres, ?_⟩
  unfold NewWatcher
  simp only [hres]

/-- Witness for C4: watchItems containing the malformed glob src/[*
(with an expander failing on it) yields an error construction. -/
theorem newWatcher_glob_error_witness :
    ∃ q eq, q ∈ ["src/[*"] ∧ isGlob q = true
      ∧ (fun p => if p = "src/[*" then Except.error "unterminated bracket"
          else Except.ok [p]) q = Except.error eq
      ∧ (∀ exts, resolvePaths
          (fun p => if p = "src/[*" then Except.error "unterminated bracket"
            else Except.ok [p]) ["src/[*"] exts = Except.error (globErrMsg q eq))
      ∧ NewWatcher
          (fun p => if p = "src/[*" then Except.error "unterminated bracket"
            else Except.ok [p]) 0 ["src/[*"] [] []
          = Except.error (globErrMsg q eq) :=
  newWatcher_glob_error _ 0 ["src/[*"] [] [] "src/[*" "unterminated bracket"
    (by decide) (by decide) (by simp)

/-- A concrete glob expander for exhibiting the extension-filter slip:
the pattern src/* expands to the single source file src/main.go. -/
def globStar : String → Except String (List String) :=
  fun p => if p = "src/*" then Except.ok ["src/main.go"] else Except.error "unused"

/-- C1 (code bug evaluation): with extension filter {.go}, resolving
the glob pattern src/* whose expansion is src/main.go yields the empty
path set, although the expansion result itself has extension .go. The
source filters each expansion result by filepath.Ext(path) of the fixed
PATTERN (here empty) instead of the extension of the match, so every
match of src/* is dropped. -/
theorem resolvePaths_filters_by_pattern_ext :
    resolvePaths globStar ["src/*"] [".go"] = Except.ok []
    ∧ extOf "src/main.go" = ".go"
    ∧ extOf "src/*" = ""
    ∧ isGlob "src/*" = true := by
  refine ⟨?_, by decide, by decide, by decide⟩
  rfl

lemma coveredIn_congr {l₁ l₂ : List String} (h : ∀ y, y ∈ l₁ ↔ y ∈ l₂)
    (x : String) : coveredIn l₁ x ↔ coveredIn l₂ x := by
  unfold coveredIn
  constructor
  · rintro ⟨y, hy, hne, hpre⟩; exact ⟨y, (h y).mp hy, hne, hpre⟩
  · rintro ⟨y, hy, hne, hpre⟩; exact ⟨y, (h y).mpr hy, hne, hpre⟩

/-- Membership in the ok-result of an Except-valued resolution. -/
def memOkRes (x : String) : Except String (List String) → Prop
  | Except.ok l => x ∈ l
  | Except.error _ => False

/-- C9: path resolution is deterministic and idempotent. For any two
reorderings σ₁ and σ₂ of the candidate set (modelling the unspecified
Go map iteration orders of two runs against the same expander), the
resolved path sets have the same members and the same error behavior;
hence resolving the same inputs twice yields an identical PathSet. -/
theorem resolvePaths_order_independent (glob : String → Except String (List String))
    (paths extensions : List String) (σ₁ σ₂ : List String → List String)
    (h₁ : ∀ l x, x ∈ σ₁ l ↔ x ∈ l) (h₂ : ∀ l x, x ∈ σ₂ l ↔ x ∈ l) :
    (∀ x, memOkRes x (resolvePathsWith σ₁ glob paths extensions)
        ↔ memOkRes x (resolvePathsWith σ₂ glob paths extensions))
    ∧ (∀ e, resolvePathsWith σ₁ glob paths extensions = Except.error e
        ↔ resolvePathsWith σ₂ glob paths extensions = Except.error e) := by
  unfold resolvePathsWith
  cases hc : resolveCandidates glob extensions paths [] with
  | error e0 => exact ⟨fun x => Iff.rfl, fun e => Iff.rfl⟩
  | ok l =>
    constructor
    · intro x
      show x ∈ removeOverlappedPaths (σ₁ l) ↔ x ∈ removeOverlappedPaths (σ₂ l)
      rw [mem_removeOverlappedPaths, mem_removeOverlappedPaths]
      have hmem : ∀ y, y ∈ σ₁ l ↔ y ∈ σ₂ l := fun y => (h₁ l y).trans (h₂ l y).symm
      rw [h₁ l x, h₂ l x, coveredIn_congr hmem x]
    · intro e
      constructor <;> intro h <;> exact absurd h (by simp)

/-- Witness for C9: the identity order and the reversed order produce
the same resolved set on a concrete two-pattern input. -/
theorem resolvePaths_order_independent_witness :
    (∀ x, memOkRes x (resolvePathsWith id globStar ["src/*", "src"] [".go"])
        ↔ memOkRes x (resolvePathsWith List.reverse globStar ["src/*", "src"] [".go"]))
    ∧ (∀ e, resolvePathsWith id globStar ["src/*", "src"] [".go"] = Except.error e
        ↔ resolvePathsWith List.reverse globStar ["src/*", "src"] [".go"]
          = Except.error e) :=
  resolvePaths_order_independent globStar ["src/*", "src"] [".go"] id List.reverse
    (fun _l _x => Iff.rfl) (fun _l _x => List.mem_reverse)

/- A filesystem tree entry visited by filepath.Walk: a regular file or
a directory, each with a name and a modification time (info.ModTime).
EntryList is the (lexically ordered, as filepath.Walk sorts) child list
of a directory. -/
mutual
inductive Entry where
  | file : String → Int → Entry
  | dir : String → Int → EntryList → Entry
inductive EntryList where
  | nil : EntryList
  | cons : Entry → EntryList → EntryList
end

/-- The name of an entry (its final path element). -/
def Entry.nm : Entry → String
  | .file n _ => n
  | .dir n _ _ => n

/-- The modification time of an entry. -/
def Entry.mt : Entry → Int
  | .file _ m => m
  | .dir _ m _ => m

/- The walk of scanChange, in pre-order, over one entry and over a
child list. The first component is fileChanged (some path plays the
errDetectedChange early exit: as soon as it is set no further entry is
examined). The second component records every visited path with its
modification time, in visit order, as instrumentation for the spec.

Per visited path the walk function of the source runs, in order:
  1. the hidden check on filepath.Base(path); a hidden directory is
     pruned via filepath.SkipDir and a hidden file skipped (skipFile),
     either way nothing below it is visited and nothing is reported;
  2. the exact-membership test of the path in ignoreItems, skipped via
     the same skipFile rule;
  3. the extension-filter and ModTime().After(startTime) check, with no
     test that the entry is a regular file; on success the path is
     recorded and errDetectedChange aborts the whole walk. -/
mutual
def walkEntry (ign exts : List String) (bl : Int) (path : String) (e : Entry) :
    Option String × List (String × Int) :=
  if isHiddenName (baseOf path) then (none, [(path, e.mt)])
  else if path ∈ ign then (none, [(path, e.mt)])
  else if extOf path ∈ exts ∧ bl < e.mt then (some path, [(path, e.mt)])
  else
    match e with
    | .file _ _ => (none, [(path, e.mt)])
    | .dir _ _ children =>
      let r := walkEntries ign exts bl path children
      (r.1, (path, e.mt) :: r.2)

def walkEntries (ign exts : List String) (bl : Int) (dirPath : String) (l : EntryList) :
    Option String × List (String × Int) :=
  match l with
  | .nil => (none, [])
  | .cons c rest =>
    let rc := walkEntry ign exts bl (dirPath ++ "/" ++ c.nm) c
    match rc.1 with
    | some q => (some q, rc.2)
    | none =>
      let rr := walkEntries ign exts bl dirPath rest
      (rr.1, rc.2 ++ rr.2)
end

/-- Embedding of scanChange: walk the tree rooted at watchPath and
return the changed path, if any. The concrete walk body only ever
returns nil, SkipDir or the errDetectedChange sentinel, so the error
return of the Go function reduces to the no-change case here; genuine
I/O failures of the external filepath.Walk are modelled at the loop
level by an abstract scanner result. -/
def scanChange (ignoreItems allowedExtensions : List String) (startTime : Int)
    (watchPath : String) (root : Entry) : Option String :=
  (walkEntry ignoreItems allowedExtensions startTime watchPath root).1

/-- An entry at path p with modification time m passes every filter of
the walk and is fresh: not hidden, not ignored, extension allowed, and
modified strictly after the baseline. -/
def passes (ign exts : List String) (bl : Int) (p : String) (m : Int) : Prop :=
  isHiddenName (baseOf p) = false ∧ p ∉ ign ∧ extOf p ∈ exts ∧ bl < m

/- Mutual size measure used to recurse over Entry and EntryList. -/
mutual
def esiz : Entry → Nat
  | .file _ _ => 1
  | .dir _ _ l => 1 + lsiz l
def lsiz : EntryList → Nat
  | .nil => 1
  | .cons e r => 1 + esiz e + lsiz r
end

/-- The walk result r is correct for its visited list: a reported path
is the first visited entry passing all filters and is the last entry
visited at all, and when nothing is reported no visited entry passes. -/
def WalkSound (ign exts : List String) (bl : Int)
    (r : Option String × List (String × Int)) : Prop :=
  (∀ q, r.1 = some q →
    ∃ pre m, r.2 = pre ++ [(q, m)] ∧ passes ign exts bl q m
      ∧ ∀ pm ∈ pre, ¬ passes ign exts bl pm.1 pm.2)
  ∧ (r.1 = none → ∀ pm ∈ r.2, ¬ passes ign exts bl pm.1 pm.2)

lemma esiz_pos (e : Entry) : 1 ≤ esiz e := by
  cases e <;> simp [esiz]

lemma lsiz_pos (l : EntryList) : 1 ≤ lsiz l := by
  cases l with
  | nil => simp [lsiz]
  | cons e r => simp only [lsiz]; omega

lemma not_passes_hidden {ign exts : List String} {bl : Int} {p : String} {m : Int}
    (h : isHiddenName (baseOf p) = true) : ¬ passes ign exts bl p m := by
  rintro ⟨hh, -, -, -⟩
  rw [hh] at h
  exact Bool.false_ne_true h

lemma not_passes_ign {ign exts : List String} {bl : Int} {p : String} {m : Int}
    (h : p ∈ ign) : ¬ passes ign exts bl p m := fun hp => hp.2.1 h

lemma not_passes_stale {ign exts : List String} {bl : Int} {p : String} {m : Int}
    (h : ¬ (extOf p ∈ exts ∧ bl < m)) : ¬ passes ign exts bl p m :=
  fun hp => h ⟨hp.2.2.1, hp.2.2.2⟩

lemma walkSound_none_single {ign exts : List String} {bl : Int} {p : String} {m : Int}
    (h : ¬ passes ign exts bl p m) : WalkSound ign exts bl (none, [(p, m)]) := by
  constructor
  · intro q hq
    exact absurd hq (by simp)
  · intro _ pm hpm
    rw [List.mem_singleton] at hpm
    subst hpm
    exact h

lemma walkSound_hit {ign exts : List String} {bl : Int} {p : String} {m : Int}
    (h : passes ign exts bl p m) : WalkSound ign exts bl (some p, [(p, m)]) := by
  constructor
  · intro q hq
    rw [Option.some_inj] at hq
    subst hq
    exact ⟨[], m, rfl, h, by simp⟩
  · intro hq
    exact absurd hq (by simp)

lemma walkSound_dir_step {ign exts : List String} {bl : Int} {p : String} {m : Int}
    {r : Option String × List (String × Int)}
    (hfail : ¬ passes ign exts bl p m) (hr : WalkSound ign exts bl r) :
    WalkSound ign exts bl (r.1, (p, m) :: r.2) := by
  constructor
  · intro q hq
    obtain ⟨pre, m', heq, hp, hpre⟩ := hr.1 q hq
    refine ⟨(p, m) :: pre, m', ?_, hp, ?_⟩
    · show (p, m) :: r.2 = ((p, m) :: pre) ++ [(q, m')]
      rw [List.cons_append, heq]
    · intro pm hpm
      rcases List.mem_cons.mp hpm with rfl | h'
      · exact hfail
      · exact hpre pm h'
  · intro hq pm hpm
    rcases List.mem_cons.mp hpm with rfl | h'
    · exact hfail
    · exact hr.2 hq pm h'

lemma walkSound_seq {ign exts : List String} {bl : Int}
    {rc rr : Option String × List (String × Int)}
    (hc : WalkSound ign exts bl rc) (hrest : WalkSound ign exts bl rr)
    (hnone : rc.1 = none) :
    WalkSound ign exts bl (rr.1, rc.2 ++ rr.2) := by
  constructor
  · intro q hq
    obtain ⟨pre, m', heq, hp, hpre⟩ := hrest.1 q hq
    refine ⟨rc.2 ++ pre, m', ?_, hp, ?_⟩
    · show rc.2 ++ rr.2 = (rc.2 ++ pre) ++ [(q, m')]
      rw [heq, List.append_assoc]
    · intro pm hpm
      rcases List.mem_append.mp hpm with h' | h'
      · exact hc.2 hnone pm h'
      · exact hpre pm h'
  · intro hq pm hpm
    rcases List.mem_append.mp hpm with h' | h'
    · exact hc.2 hnone pm h'
    · exact hrest.2 hq pm h'

lemma walkSound_aux : ∀ n : Nat,
    (∀ (ign exts : List String) (bl : Int) (path : String) (e : Entry),
      esiz e ≤ n → WalkSound ign exts bl (walkEntry ign exts bl path e))
    ∧ (∀ (ign exts : List String) (bl : Int) (dirPath : String) (l : EntryList),
      lsiz l ≤ n → WalkSound ign exts bl (walkEntries ign exts bl dirPath l)) := by
  intro n
  induction n with
  | zero =>
    constructor
    · intro ign exts bl path e hsz
      exact absurd (esiz_pos e) (by omega)
    · intro ign exts bl dirPath l hsz
      exact absurd (lsiz_pos l) (by omega)
  | succ n ih =>
    obtain ⟨ihE, ihL⟩ := ih
    constructor
    · intro ign exts bl path e hsz
      by_cases h1 : isHiddenName (baseOf path) = true
      · have heq : walkEntry ign exts bl path e = (none, [(path, e.mt)]) := by
          rw [walkEntry.eq_def]
          simp [h1]
        rw [heq]
        exact walkSound_none_single (not_passes_hidden h1)
      · by_cases h2 : path ∈ ign
        · have heq : walkEntry ign exts bl path e = (none, [(path, e.mt)]) := by
            rw [walkEntry.eq_def]
            simp [h1, h2]
          rw [heq]
          exact walkSound_none_single (not_passes_ign h2)
        · by_cases h3 : extOf path ∈ exts ∧ bl < e.mt
          · have heq : walkEntry ign exts bl path e = (some path, [(path, e.mt)]) := by
              rw [walkEntry.eq_def]
              simp [h1, h2, h3]
            rw [heq]
            exact walkSound_hit
              ⟨Bool.not_eq_true _ ▸ h1, h2, h3.1, h3.2⟩
          · cases e with
            | file nm m =>
              have heq : walkEntry ign exts bl path (.file nm m)
                  = (none, [(path, m)]) := by
                simp only [Entry.mt] at h3
                simp [walkEntry, h1, h2, h3, Entry.mt]
              rw [heq]
              simp only [Entry.mt] at h3
              exact walkSound_none_single (not_passes_stale h3)
            | dir nm m children =>
              have heq : walkEntry ign exts bl path (.dir nm m children)
                  = ((walkEntries ign exts bl path children).1,
                     (path, m) :: (walkEntries ign exts bl path children).2) := by
                simp only [Entry.mt] at h3
                simp [walkEntry, h1, h2, h3, Entry.mt]
              rw [heq]
              have hl : lsiz children ≤ n := by
                simp only [esiz] at hsz
                omega
              simp only [Entry.mt] at h3
              exact walkSound_dir_step (not_passes_stale h3)
                (ihL ign exts bl path children hl)
    · intro ign exts bl dirPath l hsz
      cases l with
      | nil =>
        have heq : walkEntries ign exts bl dirPath .nil = (none, []) := by
          simp [walkEntries]
        rw [heq]
        exact ⟨fun q hq => absurd hq (by simp), fun _ pm hpm => absurd hpm (by simp)⟩
      | cons c rest =>
        have hsc : esiz c ≤ n := by
          simp only [lsiz] at hsz
          have := lsiz_pos rest
          omega
        have hsr : lsiz rest ≤ n := by
          simp only [lsiz] at hsz
          have := esiz_pos c
          omega
        have hc := ihE ign exts bl (dirPath ++ "/" ++ c.nm) c hsc
        have hrest := ihL ign exts bl dirPath rest hsr
        cases hrc : (walkEntry ign exts bl (dirPath ++ "/" ++ c.nm) c).1 with
        | some q =>
          have heq : walkEntries ign exts bl dirPath (.cons c rest)
              = (some q, (walkEntry ign exts bl (dirPath ++ "/" ++ c.nm) c).2) := by
            simp [walkEntries, hrc]
          rw [heq, ← hrc]
          exact hc
        | none =>
          have heq : walkEntries ign exts bl dirPath (.cons c rest)
              = ((walkEntries ign exts bl dirPath rest).1,
                 (walkEntry ign exts bl (dirPath ++ "/" ++ c.nm) c).2
                   ++ (walkEntries ign exts bl dirPath rest).2) := by
            simp [walkEntries, hrc]
          rw [heq]
          exact walkSound_seq hc hrest hrc

/-- C6 (amended: eligibility is checked on every visited entry, file or
directory, see C10): a reported path is the first visited entry of the
pre-order walk that passes the hidden/ignore/extension filters with
modification time strictly after the baseline; it is the last entry the
walk visits at all (immediate early termination); every entry visited
before it fails the check, and in particular no path with modification
time at or before the baseline is ever reported. -/
theorem scanChange_first_eligible (ign exts : List String) (bl : Int)
    (path : String) (e : Entry) :
    (∀ q, scanChange ign exts bl path e = some q →
      ∃ pre m, (walkEntry ign exts bl path e).2 = pre ++ [(q, m)]
        ∧ passes ign exts bl q m
        ∧ ∀ pm ∈ pre, ¬ passes ign exts bl pm.1 pm.2)
    ∧ (scanChange ign exts bl path e = none →
      ∀ pm ∈ (walkEntry ign exts bl path e).2, ¬ passes ign exts bl pm.1 pm.2) :=
  (walkSound_aux (esiz e)).1 ign exts bl path e le_rfl

/-- A tree with a directory named a.go (modified after baseline) listed
before the first fresh regular .go file c.go. -/
def tree0 : Entry :=
  .dir "r" 0 (.cons (.dir "a.go" 5 (.cons (.file "b.txt" 0) .nil))
    (.cons (.file "c.go" 5) .nil))

/-- Witness for C6: on tree0 the reported path r/a.go is the first and
last visited entry passing the filters. -/
theorem scanChange_first_eligible_witness :
    ∃ pre m, (walkEntry [] [".go"] 0 "r" tree0).2 = pre ++ [("r/a.go", m)]
      ∧ passes [] [".go"] 0 "r/a.go" m
      ∧ ∀ pm ∈ pre, ¬ passes [] [".go"] 0 pm.1 pm.2 :=
  (scanChange_first_eligible [] [".go"] 0 "r" tree0).1 "r/a.go" (by decide)

/- Modelled from the spec: the changed FILES of the tree in traversal
order, per the contract of the PollingScanner section where only files
are checked against the extension filter and the timestamp; directories
are only walked into. The spec-side first changed file is the head of
this list. This definition exists to contrast the spec wording of C6
with the source behavior. -/
mutual
def specChangedFiles (ign exts : List String) (bl : Int) (path : String) :
    Entry → List String
  | .file _ m =>
    if isHiddenName (baseOf path) then []
    else if path ∈ ign then []
    else if extOf path ∈ exts ∧ bl < m then [path] else []
  | .dir _ _ children =>
    if isHiddenName (baseOf path) then []
    else if path ∈ ign then []
    else specChangedFilesL ign exts bl path children

def specChangedFilesL (ign exts : List String) (bl : Int) (dirPath : String) :
    EntryList → List String
  | .nil => []
  | .cons c rest =>
    specChangedFiles ign exts bl (dirPath ++ "/" ++ c.nm) c
      ++ specChangedFilesL ign exts bl dirPath rest
end

/-- Modelled from the spec: the first eligible file, in traversal
order, with modification time strictly after the baseline. -/
def specFirstChangedFile (ign exts : List String) (bl : Int) (path : String)
    (e : Entry) : Option String :=
  (specChangedFiles ign exts bl path e).head?

/-- Counterexample to C6 as stated: on tree0 the scanner does not
return the first eligible file (r/c.go) but the directory r/a.go, whose
name ends in a watched extension and whose modification time is after
the baseline; the eligibility check of the source never tests whether
the visited entry is a regular file. -/
theorem scanChange_not_first_file :
    scanChange [] [".go"] 0 "r" tree0 = some "r/a.go"
    ∧ specFirstChangedFile [] [".go"] 0 "r" tree0 = some "r/c.go"
    ∧ scanChange [] [".go"] 0 "r" tree0 ≠ specFirstChangedFile [] [".go"] 0 "r" tree0 := by
  refine ⟨by decide, by decide, by decide⟩

/-- C8: an entry whose exact path is in the ignore set is skipped: the
walk visits it, reports nothing from it, and never descends below it
(so for a directory the whole subtree is pruned, and a file is simply
skipped — it has nothing below); and membership is exact string
equality, not prefix matching: a non-member file passes the ignore
filter even when an ignored path is a proper string-prefix of it. -/
theorem walkEntry_ignore_exact (ign exts : List String) (bl : Int) (path : String)
    (hhid : isHiddenName (baseOf path) = false) :
    (∀ e : Entry, path ∈ ign →
      walkEntry ign exts bl path e = (none, [(path, e.mt)]))
    ∧ (∀ nm m, path ∉ ign → extOf path ∈ exts → bl < m →
      walkEntry ign exts bl path (.file nm m) = (some path, [(path, m)])
      ∧ scanChange ign exts bl path (.file nm m) = some path) := by
  constructor
  · intro e hmem
    rw [walkEntry.eq_def]
    simp [hhid, hmem]
  · intro nm m hnot hext hfresh
    have heq : walkEntry ign exts bl path (.file nm m) = (some path, [(path, m)]) := by
      rw [walkEntry.eq_def]
      simp [hhid, hnot, hext, hfresh, Entry.mt]
    refine ⟨heq, ?_⟩
    unfold scanChange
    rw [heq]

/-- The ignored subtree of the Scenario E witness: a directory holding
a fresh y.go file. -/
def subTree : Entry := .dir "sub" 7 (.cons (.file "y.go" 7) .nil)

/-- Witness for C8: with ignore set /root/proj/sub, the walk prunes
that directory (the fresh y.go below it is never visited and nothing is
reported), while the file /root/proj/subway.go — not a member, though
the ignored path is a proper string-prefix of it — is still reported. -/
theorem walkEntry_ignore_exact_witness :
    walkEntry ["/root/proj/sub"] [".go"] 0 "/root/proj/sub" subTree
      = (none, [("/root/proj/sub", 7)])
    ∧ scanChange ["/root/proj/sub"] [".go"] 0 "/root/proj/subway.go"
        (.file "subway.go" 7) = some "/root/proj/subway.go" := by
  constructor
  · exact (walkEntry_ignore_exact ["/root/proj/sub"] [".go"] 0 "/root/proj/sub"
      (by decide)).1 subTree (by decide)
  · exact ((walkEntry_ignore_exact ["/root/proj/sub"] [".go"] 0 "/root/proj/subway.go"
      (by decide)).2 "subway.go" 7 (by decide) (by decide) (by decide)).2

/-- C10: the eligibility check is applied to every visited non-hidden,
non-ignored entry with no test that it is a regular file, so a
directory whose name ends in a watched extension and whose modification
time is strictly after the baseline is itself reported as the changed
path (and the walk stops right there). -/
theorem scanChange_reports_directory (ign exts : List String) (bl : Int)
    (path nm : String) (m : Int) (children : EntryList)
    (hhid : isHiddenName (baseOf path) = false) (hign : path ∉ ign)
    (hext : extOf path ∈ exts) (hfresh : bl < m) :
    scanChange ign exts bl path (.dir nm m children) = some path
    ∧ walkEntry ign exts bl path (.dir nm m children) = (some path, [(path, m)]) := by
  have heq : walkEntry ign exts bl path (.dir nm m children)
      = (some path, [(path, m)]) := by
    rw [walkEntry.eq_def]
    simp [hhid, hign, hext, hfresh, Entry.mt]
  refine ⟨?_, heq⟩
  unfold scanChange
  rw [heq]

/-- Witness for C10: a fresh directory named build.go is reported. -/
theorem scanChange_reports_directory_witness :
    scanChange [] [".go"] 0 "proj/build.go"
      (.dir "build.go" 5 (.cons (.file "inner.txt" 0) .nil)) = some "proj/build.go"
    ∧ walkEntry [] [".go"] 0 "proj/build.go"
      (.dir "build.go" 5 (.cons (.file "inner.txt" 0) .nil))
      = (some "proj/build.go", [("proj/build.go", 5)]) :=
  scanChange_reports_directory [] [".go"] 0 "proj/build.go" "build.go" 5
    (.cons (.file "inner.txt" 0) .nil) (by decide) (by decide) (by decide) (by decide)

/-- The per-instance observable side of one watcher: the events and
errors delivered on its channels so far (in delivery order) and whether
Watch has returned. -/
structure WatcherInst where
  events : List String
  errors : List String
  stopped : Bool
deriving DecidableEq

/-- One iteration of the inner loop of Watch for one watch root. The
state pairs the package-global startTime (the baseline, shared by every
watcher instance in the process) with the instance. The scanner is
abstract (root and current baseline in, either a scan error or an
optional changed path out), so that both the concrete tree scanner and
a failing filepath.Walk can instantiate it. clock models time.Now() at
the moment of the n-th event delivery. After Watch has returned
(stopped) nothing further happens. -/
def watchStep (scan : String → Int → Except String (Option String))
    (clock : Nat → Int) (st : Int × WatcherInst) (root : String) :
    Int × WatcherInst :=
  if st.2.stopped then st
  else
    match scan root st.1 with
    | Except.error e =>
      (st.1, { st.2 with errors := st.2.errors ++ [e], stopped := true })
    | Except.ok none => st
    | Except.ok (some p) =>
      (clock st.2.events.length, { st.2 with events := st.2.events ++ [p] })

/-- One full cycle of Watch over the watch set (the inner for loop). -/
def watchCycle (scan : String → Int → Except String (Option String))
    (clock : Nat → Int) (roots : List String) (st : Int × WatcherInst) :
    Int × WatcherInst :=
  roots.foldl (watchStep scan clock) st

/-- n cycles of Watch (the outer for loop; the poll-interval sleep
between cycles carries no state). -/
def watchRun (scan : String → Int → Except String (Option String))
    (clock : Nat → Int) (roots : List String) : Nat → Int × WatcherInst → Int × WatcherInst
  | 0, st => st
  | n + 1, st => watchRun scan clock roots n (watchCycle scan clock roots st)

/-- The concrete scanner over a finite root -> tree filesystem: scan
errors never arise from the concrete walk body (its walk function only
returns nil, SkipDir or errDetectedChange). -/
def fsScan (ign exts : List String) (fs : List (String × Entry)) :
    String → Int → Except String (Option String) :=
  fun root bl =>
    Except.ok (match fs.find? (fun re => re.1 == root) with
      | some re => scanChange ign exts bl root re.2
      | none => none)

/-- Two watch roots, each holding one .go file modified long after the
initial baseline. -/
def fs2 : List (String × Entry) :=
  [("r1", .dir "r1" 0 (.cons (.file "a.go" 100) .nil)),
   ("r2", .dir "r2" 0 (.cons (.file "b.go" 100) .nil))]

/-- Counterexample to C2 as stated: in a single cycle over two roots
the loop delivers two change notifications — after the scanner reports
a change for r1, the loop still scans the remaining root r2 of the same
cycle and reports its change too. -/
theorem watchCycle_two_events_one_cycle :
    (watchCycle (fsScan [] [".go"] fs2) (fun _ => 1) ["r1", "r2"]
      (0, ⟨[], [], false⟩)).2.events = ["r1/a.go", "r2/b.go"] := by
  decide

/-- C2 (amended): within one cycle every root is scanned once and each
scanned root contributes at most one notification, so a cycle delivers
at most as many notifications as there are roots — and exactly one per
root when every scan reports a change, showing the loop continues with
the remaining roots of the cycle after a change rather than stopping. -/
theorem watchCycle_one_event_per_root (scan : String → Int → Except String (Option String))
    (clock : Nat → Int) (roots : List String) (st : Int × WatcherInst) :
    ((watchCycle scan clock roots st).2.events.length
      ≤ st.2.events.length + roots.length)
    ∧ (st.2.stopped = false →
      (∀ root bl, ∃ p, scan root bl = Except.ok (some p)) →
      (watchCycle scan clock roots st).2.events.length
        = st.2.events.length + roots.length) := by
  induction roots generalizing st with
  | nil => exact ⟨by simp [watchCycle], fun _ _ => by simp [watchCycle]⟩
  | cons r rs ih =>
    have hcycle : watchCycle scan clock (r :: rs) st
        = watchCycle scan clock rs (watchStep scan clock st r) := rfl
    constructor
    · have hstep : (watchStep scan clock st r).2.events.length
          ≤ st.2.events.length + 1 := by
        unfold watchStep
        split
        · omega
        · split
          · simp
          · simp
          · simp
      have := (ih (watchStep scan clock st r)).1
      rw [hcycle]
      simp only [List.length_cons]
      omega
    · intro hstop hall
      obtain ⟨p, hp⟩ := hall r st.1
      have hstep : (watchStep scan clock st r).2.events.length
            = st.2.events.length + 1
          ∧ (watchStep scan clock st r).2.stopped = false := by
        unfold watchStep
        rw [if_neg (by rw [hstop]; exact Bool.false_ne_true), hp]
        simp [hstop]
      have := (ih (watchStep scan clock st r)).2 hstep.2 hall
      rw [hcycle]
      simp only [List.length_cons]
      omega

/-- Witness for C2 (amended) with an always-changing scanner over two
roots: exactly two events are delivered in the cycle. -/
theorem watchCycle_one_event_per_root_witness :
    ((watchCycle (fun root _ => Except.ok (some root)) (fun _ => 1) ["r1", "r2"]
      (0, ⟨[], [], false⟩)).2.events.length
      ≤ (0, (⟨[], [], false⟩ : WatcherInst)).2.events.length + ["r1", "r2"].length)
    ∧ ((watchCycle (fun root _ => Except.ok (some root)) (fun _ => 1) ["r1", "r2"]
      (0, ⟨[], [], false⟩)).2.events.length
      = (0, (⟨[], [], false⟩ : WatcherInst)).2.events.length + ["r1", "r2"].length) := by
  have h := watchCycle_one_event_per_root (fun root _ => Except.ok (some root))
    (fun _ => 1) ["r1", "r2"] (0, ⟨[], [], false⟩)
  exact ⟨h.1, h.2 rfl (fun root bl => ⟨root, rfl⟩)⟩

/-- The terminal-error invariant of one watcher instance: at most one
error ever delivered, and a delivered error implies the loop stopped. -/
def LoopInv (st : Int × WatcherInst) : Prop :=
  st.2.errors.length ≤ 1 ∧ (st.2.errors ≠ [] → st.2.stopped = true)

lemma watchStep_stopped (scan : String → Int → Except String (Option String))
    (clock : Nat → Int) (st : Int × WatcherInst) (root : String)
    (h : st.2.stopped = true) : watchStep scan clock st root = st := by
  unfold watchStep
  rw [if_pos h]

lemma watchCycle_stopped (scan : String → Int → Except String (Option String))
    (clock : Nat → Int) (roots : List String) (st : Int × WatcherInst)
    (h : st.2.stopped = true) : watchCycle scan clock roots st = st := by
  induction roots with
  | nil => rfl
  | cons r rs ih =>
    show watchCycle scan clock rs (watchStep scan clock st r) = st
    rw [watchStep_stopped scan clock st r h]
    exact ih

lemma watchRun_stopped (scan : String → Int → Except String (Option String))
    (clock : Nat → Int) (roots : List String) (st : Int × WatcherInst)
    (h : st.2.stopped = true) : ∀ n, watchRun scan clock roots n st = st := by
  intro n
  induction n with
  | zero => rfl
  | succ n ih =>
    show watchRun scan clock roots n (watchCycle scan clock roots st) = st
    rw [watchCycle_stopped scan clock roots st h]
    exact ih

lemma watchStep_inv (scan : String → Int → Except String (Option String))
    (clock : Nat → Int) (st : Int × WatcherInst) (root : String)
    (h : LoopInv st) : LoopInv (watchStep scan clock st root) := by
  unfold watchStep
  split
  · exact h
  · next hstop =>
    have herr : st.2.errors = [] := by
      by_contra hne
      exact hstop (h.2 hne)
    split
    · constructor
      · show (st.2.errors ++ [_]).length ≤ 1
        rw [herr]
        simp
      · intro _
        rfl
    · exact h
    · exact ⟨h.1, fun hne => h.2 hne⟩

lemma watchCycle_inv (scan : String → Int → Except String (Option String))
    (clock : Nat → Int) (roots : List String) (st : Int × WatcherInst)
    (h : LoopInv st) : LoopInv (watchCycle scan clock roots st) := by
  induction roots generalizing st with
  | nil => exact h
  | cons r rs ih =>
    exact ih (watchStep scan clock st r) (watchStep_inv scan clock st r h)

lemma watchRun_inv (scan : String → Int → Except String (Option String))
    (clock : Nat → Int) (roots : List String) (st : Int × WatcherInst)
    (h : LoopInv st) : ∀ n, LoopInv (watchRun scan clock roots n st) := by
  intro n
  induction n generalizing st with
  | zero => exact h
  | succ n ih =>
    exact ih (watchCycle scan clock roots st) (watchCycle_inv scan clock roots st h)

/-- C7: starting from a running instance with no error delivered, a run
of any length delivers at most one error; a delivered error implies the
loop has stopped; a stopped run is a fixed point of any further run (no
later event, error or scan); and a reported scan error is delivered
exactly once, in the same step, which stops the loop without scanning
further roots. -/
theorem watch_error_terminal (scan : String → Int → Except String (Option String))
    (clock : Nat → Int) (roots : List String) (n : Nat) (st : Int × WatcherInst)
    (_hstop : st.2.stopped = false) (herr : st.2.errors = []) :
    ((watchRun scan clock roots n st).2.errors.length ≤ 1)
    ∧ ((watchRun scan clock roots n st).2.errors ≠ [] →
        (watchRun scan clock roots n st).2.stopped = true)
    ∧ ((watchRun scan clock roots n st).2.stopped = true →
        ∀ m, watchRun scan clock roots m (watchRun scan clock roots n st)
          = watchRun scan clock roots n st)
    ∧ (∀ (st' : Int × WatcherInst) root e, st'.2.stopped = false →
        scan root st'.1 = Except.error e →
        watchStep scan clock st' root
          = (st'.1, { st'.2 with errors := st'.2.errors ++ [e], stopped := true })) := by
  have hinv : LoopInv st := ⟨by rw [herr]; simp, fun hne => absurd herr hne⟩
  have hrun := watchRun_inv scan clock roots st hinv n
  refine ⟨hrun.1, hrun.2, ?_, ?_⟩
  · intro hstopped m
    exact watchRun_stopped scan clock roots _ hstopped m
  · intro st' root e hstop' hscan
    unfold watchStep
    rw [if_neg (by rw [hstop']; exact Bool.false_ne_true), hscan]

/-- Witness for C7: a permanently failing scanner over one root, run
for three cycles, delivers exactly one error and stops. -/
theorem watch_error_terminal_witness :
    (watchRun (fun _ _ => Except.error "io failure") (fun _ => 0) ["r"] 3
      (0, ⟨[], [], false⟩)).2.errors.length ≤ 1 :=
  (watch_error_terminal (fun _ _ => Except.error "io failure") (fun _ => 0) ["r"] 3
    (0, ⟨[], [], false⟩) rfl rfl).1

/-- One scheduling step of watcher instance A in a process running two
watcher instances: both instances share the single package-global
startTime (the first component), each owns its private channels. -/
def stepOnA (scanA : String → Int → Except String (Option String))
    (clock : Nat → Int) (st : Int × WatcherInst × WatcherInst) (root : String) :
    Int × WatcherInst × WatcherInst :=
  let r := watchStep scanA clock (st.1, st.2.1) root
  (r.1, r.2, st.2.2)

/-- One scheduling step of watcher instance B (same shared startTime). -/
def stepOnB (scanB : String → Int → Except String (Option String))
    (clock : Nat → Int) (st : Int × WatcherInst × WatcherInst) (root : String) :
    Int × WatcherInst × WatcherInst :=
  let r := watchStep scanB clock (st.1, st.2.2) root
  (r.1, st.2.1, r.2)

/-- Watcher A's filesystem: root ra with one fresh x.go file. -/
def fsA : List (String × Entry) := [("ra", .dir "ra" 0 (.cons (.file "x.go" 5) .nil))]

/-- Watcher B's filesystem: root rb with one fresh y.go file. -/
def fsB : List (String × Entry) := [("rb", .dir "rb" 0 (.cons (.file "y.go" 5) .nil))]

/-- Counterexample to C3 as stated: startTime is a package-level
global, not instance-owned. Scanning alone, instance B reports its
fresh file rb/y.go; but after instance A delivers its own change (which
sets the shared startTime to the delivery time 10), the very same scan
by B reports nothing — one instance's delivery advanced the baseline of
the other, so independently constructed watchers do not have
independent baselines. -/
theorem startTime_not_instance_owned :
    (stepOnB (fsScan [] [".go"] fsB) (fun _ => 10)
      (0, ⟨[], [], false⟩, ⟨[], [], false⟩) "rb").2.2.events = ["rb/y.go"]
    ∧ (stepOnA (fsScan [] [".go"] fsA) (fun _ => 10)
        (0, ⟨[], [], false⟩, ⟨[], [], false⟩) "ra").2.1.events = ["ra/x.go"]
    ∧ (stepOnB (fsScan [] [".go"] fsB) (fun _ => 10)
        (stepOnA (fsScan [] [".go"] fsA) (fun _ => 10)
          (0, ⟨[], [], false⟩, ⟨[], [], false⟩) "ra") "rb").2.2.events = [] := by
  decide

/-- C3 (amended): the baseline is the single process-wide startTime
shared by every instance; it is advanced to the current time exactly
when a change is delivered and left unchanged on a no-change scan; a
step of instance A advances that shared value exactly as its own step
function does while leaving B's instance state untouched, so B's next
scan compares against the baseline A just set. -/
theorem startTime_shared_global (scan : String → Int → Except String (Option String))
    (clock : Nat → Int) (st : Int × WatcherInst) (root : String)
    (hstop : st.2.stopped = false) :
    (∀ p, scan root st.1 = Except.ok (some p) →
      (watchStep scan clock st root).1 = clock st.2.events.length
      ∧ (watchStep scan clock st root).2.events = st.2.events ++ [p])
    ∧ (scan root st.1 = Except.ok none → watchStep scan clock st root = st)
    ∧ (∀ wB : WatcherInst,
      (stepOnA scan clock (st.1, st.2, wB) root).1 = (watchStep scan clock st root).1
      ∧ (stepOnA scan clock (st.1, st.2, wB) root).2.2 = wB) := by
  have hne : ¬ st.2.stopped = true := by
    rw [hstop]
    exact Bool.false_ne_true
  refine ⟨?_, ?_, fun wB => ⟨rfl, rfl⟩⟩
  · intro p hscan
    unfold watchStep
    rw [if_neg hne, hscan]
    exact ⟨rfl, rfl⟩
  · intro hscan
    unfold watchStep
    rw [if_neg hne, hscan]

/-- Witness for C3 (amended): instance A's delivery sets the shared
baseline to the delivery time 10 and appends its event. -/
theorem startTime_shared_global_witness :
    (watchStep (fsScan [] [".go"] fsA) (fun _ => 10) (0, ⟨[], [], false⟩) "ra").1 = 10
    ∧ (watchStep (fsScan [] [".go"] fsA) (fun _ => 10)
        (0, ⟨[], [], false⟩) "ra").2.events = ["ra/x.go"] := by
  have h := (startTime_shared_global (fsScan [] [".go"] fsA) (fun _ => 10)
    (0, ⟨[], [], false⟩) "ra" rfl).1 "ra/x.go" rfl
  exact ⟨h.1, h.2⟩
